import Mathlib

/-!
Verification of the 8-puzzle solving engine.

The functional solver (`src/functional/main.py`) represents a board as an
immutable 3x3 tuple of tuples of integers, with 0 denoting the blank.  We
embed it as `List (List Nat)`.  All in-range accesses of the Python code are
reproduced by `cell`, which reads position `(r, c)` with an out-of-band
default 9 (the Python code only indexes positions it has bounds-checked,
so the default is never consulted on 3x3-shaped boards).

The imperative solver (`src/imperative/main.py`) consists solely of
documented `TODO`-stubbed declarations (`bfs`, `validate_input`, ...); the
definitions for it below are modelled from its docstrings and the
specification, and are marked as such.
-/

abbrev Board := List (List Nat)

/-- Read cell `(r, c)` of a board; Python's `board[r][c]` for indices the
source has bounds-checked.  Out-of-range reads (never performed by the
source on 3x3-shaped boards) give the out-of-band value 9. -/
def cell (b : Board) (r c : Nat) : Nat := (b.getD r []).getD c 9

/-- The nested `search_rows` / `search_cols` recursion of
`find_tile_position` (src/functional/main.py), merged into a single
two-counter recursion: scan rows 0..2, columns 0..2, in row-major order. -/
def find_tile_search (target_board : Board) (tile : Nat) (row_idx col_idx : Nat) : Int × Int :=
  if row_idx ≥ 3 then (-1, -1)
  else if col_idx ≥ 3 then find_tile_search target_board tile (row_idx + 1) 0
  else if cell target_board row_idx col_idx = tile then ((row_idx : Int), (col_idx : Int))
  else find_tile_search target_board tile row_idx (col_idx + 1)
termination_by (3 - row_idx, 3 - col_idx)

/-- `find_tile_position` of src/functional/main.py: position of `tile`,
or the sentinel `(-1, -1)` if the board does not contain it. -/
def find_tile_position (target_board : Board) (tile : Nat) : Int × Int :=
  find_tile_search target_board tile 0 0

/-- The nested recursion of `find_zero` (src/functional/main.py), which is
`find_tile_position` specialised to the blank tile 0. -/
def find_zero_search (board : Board) (row_idx col_idx : Nat) : Int × Int :=
  if row_idx ≥ 3 then (-1, -1)
  else if col_idx ≥ 3 then find_zero_search board (row_idx + 1) 0
  else if cell board row_idx col_idx = 0 then ((row_idx : Int), (col_idx : Int))
  else find_zero_search board row_idx (col_idx + 1)
termination_by (3 - row_idx, 3 - col_idx)

/-- `find_zero` of src/functional/main.py. -/
def find_zero (board : Board) : Int × Int := find_zero_search board 0 0

/-- `calculate_tile_distance` of src/functional/main.py. -/
def calculate_tile_distance (board goal : Board) (tile : Nat) : Int :=
  if tile = 0 then 0
  else
    let cp := find_tile_position board tile
    let gp := find_tile_position goal tile
    if cp.1 = -1 ∨ gp.1 = -1 then 0
    else |cp.1 - gp.1| + |cp.2 - gp.2|

/-- Inner `sum_distances` of `manhattan_distance` (src/functional/main.py):
sum of per-tile distances for tiles `tile`, `tile+1`, ..., 8. -/
def sum_distances (board goal : Board) (tile : Nat) : Int :=
  if tile > 8 then 0
  else calculate_tile_distance board goal tile + sum_distances board goal (tile + 1)
termination_by 9 - tile

/-- `manhattan_distance` of src/functional/main.py. -/
def manhattan_distance (board goal : Board) : Int := sum_distances board goal 1

/-- Inner `build_cell` of `swap` (src/functional/main.py): build the cells
of row `row_idx` from column `col_idx` on, swapping `(r1,c1)` and `(r2,c2)`. -/
def build_cell (board : Board) (r1 c1 r2 c2 row_idx : Nat) (original_row : List Nat)
    (col_idx : Nat) : List Nat :=
  if col_idx ≥ 3 then []
  else
    let value :=
      if row_idx = r1 ∧ col_idx = c1 then cell board r2 c2
      else if row_idx = r2 ∧ col_idx = c2 then cell board r1 c1
      else original_row.getD col_idx 9
    value :: build_cell board r1 c1 r2 c2 row_idx original_row (col_idx + 1)
termination_by 3 - col_idx

/-- Inner `build_board` of `swap` (src/functional/main.py). -/
def build_board (board : Board) (r1 c1 r2 c2 row_idx : Nat) : Board :=
  if row_idx ≥ board.length then []
  else build_cell board r1 c1 r2 c2 row_idx (board.getD row_idx []) 0 ::
    build_board board r1 c1 r2 c2 (row_idx + 1)
termination_by board.length - row_idx

/-- `swap` of src/functional/main.py: a new board with positions
`(r1,c1)` and `(r2,c2)` exchanged. -/
def swap (board : Board) (r1 c1 r2 c2 : Nat) : Board := build_board board r1 c1 r2 c2 0

/-- The `directions` tuple of `next_states` (src/functional/main.py):
up, down, left, right. -/
def directions : List (Int × Int) := [(-1, 0), (1, 0), (0, -1), (0, 1)]

/-- Inner `generate_moves` of `next_states` (src/functional/main.py).
The Python code only calls `swap` after checking `0 <= new_row < 3` and
`0 <= new_col < 3`, and `find_zero` yields either an in-range position or
`(-1, -1)` (in which case no direction passes the check), so the `toNat`
conversions below are exact. -/
def generate_moves (board : Board) (zero_row zero_col : Int) (dir_idx : Nat) : List Board :=
  if dir_idx ≥ directions.length then []
  else
    let d := directions.getD dir_idx (0, 0)
    let new_row := zero_row + d.1
    let new_col := zero_col + d.2
    if 0 ≤ new_row ∧ new_row < 3 ∧ 0 ≤ new_col ∧ new_col < 3 then
      swap board zero_row.toNat zero_col.toNat new_row.toNat new_col.toNat ::
        generate_moves board zero_row zero_col (dir_idx + 1)
    else generate_moves board zero_row zero_col (dir_idx + 1)
termination_by directions.length - dir_idx

/-- `next_states` of src/functional/main.py. -/
def next_states (board : Board) : List Board :=
  let z := find_zero board
  generate_moves board z.1 z.2 0

/-- `insert_move_by_heuristic` of src/functional/main.py. -/
def insert_move_by_heuristic (move : Board) (sorted_moves : List Board) (goal : Board) :
    List Board :=
  match sorted_moves with
  | [] => [move]
  | first :: rest =>
    let move_distance := manhattan_distance move goal
    let first_distance := manhattan_distance first goal
    if move_distance ≤ first_distance then move :: first :: rest
    else first :: insert_move_by_heuristic move rest goal

/-- Inner `sort_moves` of `sort_moves_by_heuristic` (src/functional/main.py). -/
def sort_moves (goal : Board) (unsorted sorted_result : List Board) : List Board :=
  match unsorted with
  | [] => sorted_result
  | m :: rest => sort_moves goal rest (insert_move_by_heuristic m sorted_result goal)

/-- `sort_moves_by_heuristic` of src/functional/main.py. -/
def sort_moves_by_heuristic (moves : List Board) (goal : Board) : List Board :=
  sort_moves goal moves []

/-- `is_move_promising` of src/functional/main.py. -/
def is_move_promising (move goal : Board) (current_distance : Int) : Bool :=
  manhattan_distance move goal ≤ current_distance + 2

mutual

/-- `solve` of src/functional/main.py, with the `path` argument explicit
(the Python default `path=None` initialises it to `[board]`, see `solve0`).
The float comparison `current_distance > len(path) * 1.3` is modelled
exactly as the rational comparison `10 * current_distance > 13 * len(path)`;
for the integer operands that occur here (distances bounded by 32,
path lengths bounded by the depth bound) the two agree. -/
def solve (board goal : Board) (path : List Board) (max_depth : Nat) : Option (List Board) :=
  if path.length > max_depth then none
  else if board = goal then some path
  else
    let current_distance := manhattan_distance board goal
    if board ∈ path.dropLast then none
    else if path.length > 25 ∧ 10 * current_distance > 13 * (path.length : Int) then none
    else try_moves board goal path max_depth current_distance
      (sort_moves_by_heuristic (next_states board) goal)
termination_by (max_depth + 2 - path.length, 0)

/-- The `for next_board in sorted_moves` loop of `solve`
(src/functional/main.py).  Python's `if result:` treats both `None` and the
empty list as failure, hence the `result = []` test. -/
def try_moves (board goal : Board) (path : List Board) (max_depth : Nat)
    (current_distance : Int) (moves : List Board) : Option (List Board) :=
  match moves with
  | [] => none
  | next_board :: rest =>
    if next_board ∉ path ∧ is_move_promising next_board goal current_distance = true then
      match solve next_board goal (path ++ [next_board]) max_depth with
      | some result =>
        if result = [] then try_moves board goal path max_depth current_distance rest
        else some result
      | none => try_moves board goal path max_depth current_distance rest
    else try_moves board goal path max_depth current_distance rest
termination_by (max_depth + 1 - path.length, moves.length)

end

/-- `solve` of src/functional/main.py as called externally: the default
`path=None` makes the first call run with `path = [board]`. -/
def solve0 (board goal : Board) (max_depth : Nat) : Option (List Board) :=
  solve board goal [board] max_depth

/-- Modelled from the spec: `validate_input` of src/imperative/main.py is a
`TODO` stub; its docstring and spec section 7 require a 3x3 shape with each
of the numbers 0..8 appearing exactly once. -/
def validate_input (board : Board) : Bool :=
  (board.length == 3) && board.all (fun row => row.length == 3) &&
    (List.range 9).all (fun v => board.flatten.count v == 1)

/-- Modelled from the spec: the enqueue loop of `bfs`
(src/imperative/main.py), whose body is a `TODO` stub.  Per the docstring
("generate children ... add unvisited children to queue"), each child not
yet visited is appended to the queue (bundled with its path, the
`SearchNode` of spec section 3, path stored goal-end first) and marked
visited. -/
def enqueue_children (parent_path : List Board) (children : List Board)
    (queue : List (List Board)) (visited : List Board) : List (List Board) × List Board :=
  match children with
  | [] => (queue, visited)
  | c :: cs =>
    if c ∈ visited then enqueue_children parent_path cs queue visited
    else enqueue_children parent_path cs (queue ++ [c :: parent_path]) (visited ++ [c])

/-- Modelled from the spec: the `while` loop of `bfs`
(src/imperative/main.py), whose body is a `TODO` stub.  Per the docstring
and spec section 4.4: dequeue the front node, return its (reconstructed,
start-first) path if its board is the goal, otherwise enqueue its unvisited
children; `fuel` is the iteration budget of spec section 4.4/6, and
exhausting it (or the queue) yields the not-found signal `none`. -/
def bfs_loop (goal : Board) (fuel : Nat) (queue : List (List Board))
    (visited : List Board) : Option (List Board) :=
  match fuel with
  | 0 => none
  | fuel' + 1 =>
    match queue with
    | [] => none
    | p :: rest =>
      match p with
      | [] => none
      | b :: _ =>
        if b = goal then some p.reverse
        else
          bfs_loop goal fuel' (enqueue_children p (next_states b) rest visited).1
            (enqueue_children p (next_states b) rest visited).2

/-- Modelled from the spec: `bfs` of src/imperative/main.py (the
`solve_optimal` entry point of spec section 6), whose body is a `TODO`
stub: breadth-first search from `start`, with an iteration budget. -/
def bfs (start goal : Board) (iteration_budget : Nat) : Option (List Board) :=
  bfs_loop goal iteration_budget [[start]] [start]

/-- The permutation invariant of spec section 3: a 3x3 grid whose multiset
of values is exactly 0..8. -/
def ValidBoard (b : Board) : Prop :=
  b.length = 3 ∧ (∀ r ∈ b, r.length = 3) ∧ b.flatten.Perm [0, 1, 2, 3, 4, 5, 6, 7, 8]

instance : DecidablePred ValidBoard := fun b => by
  unfold ValidBoard; infer_instance

/-- The nine cell values of the 3x3 window of a board, row-major. -/
def window (b : Board) : List Nat :=
  [cell b 0 0, cell b 0 1, cell b 0 2, cell b 1 0, cell b 1 1, cell b 1 2,
    cell b 2 0, cell b 2 1, cell b 2 2]

/-- Value `t` occurs somewhere in the 3x3 window of `b`. -/
def occurs (b : Board) (t : Nat) : Prop := t ∈ window b

instance (b : Board) (t : Nat) : Decidable (occurs b t) := by
  unfold occurs; infer_instance

/-- A forward path of boards from `start` to `finish`: consecutive boards
are related by one legal move of the move generator. -/
def PathFrom (start finish : Board) (q : List Board) : Prop :=
  q.head? = some start ∧ q.getLast? = some finish ∧
    List.Chain' (fun a b => b ∈ next_states a) q

/-- The four cells adjacent to `(r, c)`, in the move order up, down, left,
right, before bounds filtering (spec section 4.2). -/
def neighbor_cells (r c : Nat) : List (Int × Int) :=
  [((r : Int) - 1, (c : Int)), ((r : Int) + 1, (c : Int)),
    ((r : Int), (c : Int) - 1), ((r : Int), (c : Int) + 1)]

/-- Keep the cells lying within the 3x3 bounds, as natural coordinates. -/
def in_bounds_cells (l : List (Int × Int)) : List (Nat × Nat) :=
  (l.filter (fun p => 0 ≤ p.1 && p.1 < 3 && 0 ≤ p.2 && p.2 < 3)).map
    (fun p => (p.1.toNat, p.2.toNat))

/-- Board `nb` is board `b` with the contents of cells `(r, c)` and
`(r2, c2)` exchanged and all other cells unchanged. -/
def is_exchange (b : Board) (r c r2 c2 : Nat) (nb : Board) : Prop :=
  ∀ i j, i < 3 → j < 3 →
    cell nb i j =
      if i = r ∧ j = c then cell b r2 c2
      else if i = r2 ∧ j = c2 then cell b r c
      else cell b i j

/-- First successful result of `f` over a list, where (as in Python's
truthiness test `if result:`) `none` and `some []` both count as failure. -/
def first_success (f : Board → Option (List Board)) : List Board → Option (List Board)
  | [] => none
  | s :: rest =>
    match f s with
    | some r => if r = [] then first_success f rest else some r
    | none => first_success f rest

/-- Number of queue entries (reversed paths) of length `n`. -/
def countN (n : Nat) (Q : List (List Board)) : Nat :=
  (Q.filter (fun q => q.length == n)).length

/-- Invariant of the breadth-first search loop.  `queue` holds reversed
paths (current board first, `start` last); `n` is the length of the paths
at the front of the queue. -/
structure BfsInv (start goal : Board) (queue : List (List Board)) (visited : List Board)
    (n : Nat) : Prop where
  npos : 1 ≤ n
  levels : ∃ A B, queue = A ++ B ∧ (∀ p ∈ A, p.length = n) ∧ (∀ p ∈ B, p.length = n + 1)
  valid : ∀ p ∈ queue, ∃ b, p.head? = some b ∧ PathFrom start b p.reverse
  start_visited : start ∈ visited
  heads_visited : ∀ p ∈ queue, ∀ b, p.head? = some b → b ∈ visited
  shortest : ∀ p ∈ queue, ∀ b, p.head? = some b → ∀ q, PathFrom start b q → p.length ≤ q.length
  reach_visited : ∀ v q, PathFrom start v q → q.length ≤ n → v ∈ visited
  expanded : ∀ v ∈ visited, (∃ p ∈ queue, p.head? = some v) ∨ (∀ w ∈ next_states v, w ∈ visited)
  goal_queued : goal ∈ visited → ∃ p ∈ queue, p.head? = some goal

/-- The standard goal configuration (from the demo `main` of
src/functional/main.py). -/
def goal_board : Board := [[1, 2, 3], [4, 5, 6], [7, 8, 0]]

/-- A board one blank-slide away from `goal_board` (blank moved left). -/
def one_move_board : Board := [[1, 2, 3], [4, 5, 6], [7, 0, 8]]

/-- The successor of `goal_board` obtained by sliding the blank up. -/
def up_move_board : Board := [[1, 2, 3], [4, 5, 0], [7, 8, 6]]

/-- A malformed board violating the permutation invariant (all cells 0). -/
def all_zero_board : Board := [[0, 0, 0], [0, 0, 0], [0, 0, 0]]

/-! ### Helper lemmas -/

lemma valid_destruct (b : Board) (h : ValidBoard b) :
    ∃ a0 a1 a2 a3 a4 a5 a6 a7 a8 : Nat,
      b = [[a0, a1, a2], [a3, a4, a5], [a6, a7, a8]] ∧
      List.Perm [a0, a1, a2, a3, a4, a5, a6, a7, a8] [0, 1, 2, 3, 4, 5, 6, 7, 8] := by
  obtain ⟨hlen, hrows, hperm⟩ := h
  obtain ⟨r0, r1, r2, rfl⟩ : ∃ x y z, b = [x, y, z] := by
    rcases b with _ | ⟨r0, _ | ⟨r1, _ | ⟨r2, _ | ⟨r3, b⟩⟩⟩⟩ <;> simp_all
  obtain ⟨a0, a1, a2, rfl⟩ : ∃ x y z, r0 = [x, y, z] := by
    have h0 := hrows r0 (by simp)
    rcases r0 with _ | ⟨x, _ | ⟨y, _ | ⟨z, _ | ⟨w, r⟩⟩⟩⟩ <;> simp_all
  obtain ⟨a3, a4, a5, rfl⟩ : ∃ x y z, r1 = [x, y, z] := by
    have h1 := hrows r1 (by simp)
    rcases r1 with _ | ⟨x, _ | ⟨y, _ | ⟨z, _ | ⟨w, r⟩⟩⟩⟩ <;> simp_all
  obtain ⟨a6, a7, a8, rfl⟩ : ∃ x y z, r2 = [x, y, z] := by
    have h2 := hrows r2 (by simp)
    rcases r2 with _ | ⟨x, _ | ⟨y, _ | ⟨z, _ | ⟨w, r⟩⟩⟩⟩ <;> simp_all
  exact ⟨a0, a1, a2, a3, a4, a5, a6, a7, a8, rfl, by simpa using hperm⟩

lemma occurs_of_cell {b : Board} {i j t : Nat} (hi : i < 3) (hj : j < 3)
    (h : cell b i j = t) : occurs b t := by
  interval_cases i <;> interval_cases j <;>
    simp [occurs, window, ← h]

lemma find_tile_search_miss {b : Board} {t : Nat} (h : ¬ occurs b t) :
    find_tile_search b t 0 0 = (-1, -1) := by
  simp only [occurs, window, List.mem_cons, List.not_mem_nil, or_false, not_or] at h
  obtain ⟨h00, h01, h02, h10, h11, h12, h20, h21, h22⟩ := h
  have n00 : cell b 0 0 ≠ t := Ne.symm h00
  have n01 : cell b 0 1 ≠ t := Ne.symm h01
  have n02 : cell b 0 2 ≠ t := Ne.symm h02
  have n10 : cell b 1 0 ≠ t := Ne.symm h10
  have n11 : cell b 1 1 ≠ t := Ne.symm h11
  have n12 : cell b 1 2 ≠ t := Ne.symm h12
  have n20 : cell b 2 0 ≠ t := Ne.symm h20
  have n21 : cell b 2 1 ≠ t := Ne.symm h21
  have n22 : cell b 2 2 ≠ t := Ne.symm h22
  simp [find_tile_search, n00, n01, n02, n10, n11, n12, n20, n21, n22]


set_option maxHeartbeats 1000000 in
lemma find_tile_position_of_cell {b : Board} (hb : ValidBoard b) {i j t : Nat}
    (hi : i < 3) (hj : j < 3) (h : cell b i j = t) :
    find_tile_position b t = ((i : Int), (j : Int)) := by
  obtain ⟨a0, a1, a2, a3, a4, a5, a6, a7, a8, rfl, hperm⟩ := valid_destruct b hb
  have hnd : List.Nodup [a0, a1, a2, a3, a4, a5, a6, a7, a8] := hperm.symm.nodup (by decide)
  simp only [List.nodup_cons, List.mem_cons, List.not_mem_nil, not_or, or_false,
    List.nodup_nil, and_true] at hnd
  interval_cases i <;> interval_cases j
  all_goals
    simp [cell] at h
    rw [← h]
    simp [find_tile_position, find_tile_search, cell, hnd]

lemma find_zero_search_eq_tile (b : Board) (r c : Nat) :
    find_zero_search b r c = find_tile_search b 0 r c := by
  induction r, c using find_zero_search.induct b with
  | case1 r c h => rw [find_zero_search, find_tile_search]; simp [h]
  | case2 r c h h2 ih => rw [find_zero_search, find_tile_search]; simp [h, h2, ih]
  | case3 r c h h2 h3 => rw [find_zero_search, find_tile_search]; simp [h, h2, h3]
  | case4 r c h h2 h3 ih => rw [find_zero_search, find_tile_search]; simp [h, h2, h3, ih]

lemma find_zero_eq_tile (b : Board) : find_zero b = find_tile_position b 0 :=
  find_zero_search_eq_tile b 0 0

lemma exists_cell_zero (b : Board) (hb : ValidBoard b) :
    ∃ i j : Nat, i < 3 ∧ j < 3 ∧ cell b i j = 0 := by
  obtain ⟨a0, a1, a2, a3, a4, a5, a6, a7, a8, rfl, hperm⟩ := valid_destruct b hb
  have hmem : (0 : Nat) ∈ [a0, a1, a2, a3, a4, a5, a6, a7, a8] := hperm.mem_iff.2 (by decide)
  simp only [List.mem_cons, List.not_mem_nil, or_false] at hmem
  rcases hmem with h | h | h | h | h | h | h | h | h
  · exact ⟨0, 0, by norm_num, by norm_num, h.symm⟩
  · exact ⟨0, 1, by norm_num, by norm_num, h.symm⟩
  · exact ⟨0, 2, by norm_num, by norm_num, h.symm⟩
  · exact ⟨1, 0, by norm_num, by norm_num, h.symm⟩
  · exact ⟨1, 1, by norm_num, by norm_num, h.symm⟩
  · exact ⟨1, 2, by norm_num, by norm_num, h.symm⟩
  · exact ⟨2, 0, by norm_num, by norm_num, h.symm⟩
  · exact ⟨2, 1, by norm_num, by norm_num, h.symm⟩
  · exact ⟨2, 2, by norm_num, by norm_num, h.symm⟩

lemma find_zero_spec (b : Board) (hb : ValidBoard b) :
    ∃ r c : Nat, r < 3 ∧ c < 3 ∧ find_zero b = ((r : Int), (c : Int)) ∧ cell b r c = 0 := by
  obtain ⟨i, j, hi, hj, hc⟩ := exists_cell_zero b hb
  exact ⟨i, j, hi, hj, by rw [find_zero_eq_tile]; exact find_tile_position_of_cell hb hi hj hc, hc⟩

lemma find_tile_position_miss {b : Board} {t : Nat} (h : ¬ occurs b t) :
    find_tile_position b t = (-1, -1) :=
  find_tile_search_miss h

lemma cell_unique {b : Board} (hb : ValidBoard b) {i j i2 j2 t : Nat}
    (hi : i < 3) (hj : j < 3) (hi2 : i2 < 3) (hj2 : j2 < 3)
    (h : cell b i j = t) (h2 : cell b i2 j2 = t) : i2 = i ∧ j2 = j := by
  have e1 := find_tile_position_of_cell hb hi hj h
  have e2 := find_tile_position_of_cell hb hi2 hj2 h2
  rw [e1] at e2
  have hr : (i2 : Int) = (i : Int) := congrArg Prod.fst e2.symm
  have hc : (j2 : Int) = (j : Int) := congrArg Prod.snd e2.symm
  exact ⟨by exact_mod_cast hr, by exact_mod_cast hc⟩

lemma calculate_tile_distance_nonneg (b g : Board) (t : Nat) :
    0 ≤ calculate_tile_distance b g t := by
  rw [calculate_tile_distance]
  split_ifs <;> positivity

lemma calculate_tile_distance_self (b : Board) (t : Nat) :
    calculate_tile_distance b b t = 0 := by
  rw [calculate_tile_distance]
  split_ifs <;> simp

lemma sum_distances_nonneg (b g : Board) (t : Nat) : 0 ≤ sum_distances b g t := by
  induction t using sum_distances.induct b g with
  | case1 t h => rw [sum_distances]; simp [h]
  | case2 t h ih =>
    rw [sum_distances]
    simp only [h, if_false]
    have := calculate_tile_distance_nonneg b g t
    omega

lemma sum_distances_eq_zero (b g : Board) (t : Nat)
    (h : ∀ u, t ≤ u → u ≤ 8 → calculate_tile_distance b g u = 0) :
    sum_distances b g t = 0 := by
  induction t using sum_distances.induct b g with
  | case1 t ht => rw [sum_distances]; simp [ht]
  | case2 t ht ih =>
    rw [sum_distances]
    simp only [ht, if_false]
    rw [h t (le_refl t) (by omega), ih (fun u hu h8 => h u (by omega) h8)]
    norm_num

lemma manhattan_distance_self (b : Board) : manhattan_distance b b = 0 := by
  rw [manhattan_distance]
  exact sum_distances_eq_zero b b 1 (fun u _ _ => calculate_tile_distance_self b u)

lemma manhattan_distance_nonneg (b g : Board) : 0 ≤ manhattan_distance b g :=
  sum_distances_nonneg b g 1

lemma manhattan_eq_sum (b g : Board) :
    manhattan_distance b g = (Finset.Icc 1 8).sum (fun t => calculate_tile_distance b g t) := by
  rw [manhattan_distance]
  rw [sum_distances, sum_distances, sum_distances, sum_distances, sum_distances,
    sum_distances, sum_distances, sum_distances, sum_distances]
  norm_num
  rw [show Finset.Icc (1 : Nat) 8 = {1, 2, 3, 4, 5, 6, 7, 8} from rfl]
  simp [Finset.sum_insert, Finset.mem_insert]

/-! ### Claims C10, C3: tile lookup -/

/-- Claim C10: for every pair of boards and every value absent from either
board, the per-tile distance computation silently returns 0 instead of
failing: `find_tile_position` yields the sentinel `(-1, -1)` for a missing
value, `calculate_tile_distance` maps any sentinel to distance 0, and hence
`manhattan_distance` of a board missing all of the tiles 1..8 is 0; the
embedding is total, so no error is ever raised. -/
theorem claim10_missing_tile_sentinel (b g : Board) (t : Nat) :
    (¬ occurs b t → find_tile_position b t = (-1, -1)) ∧
    ((¬ occurs b t ∨ ¬ occurs g t) → calculate_tile_distance b g t = 0) ∧
    ((∀ u, 1 ≤ u → u ≤ 8 → ¬ occurs b u) → manhattan_distance b g = 0) := by
  have hc : ∀ u : Nat, (¬ occurs b u ∨ ¬ occurs g u) → calculate_tile_distance b g u = 0 := by
    rintro u (hm | hm)
    · have hcp := find_tile_position_miss hm
      simp [calculate_tile_distance, hcp]
    · have hgp := find_tile_position_miss hm
      simp [calculate_tile_distance, hgp]
  refine ⟨fun h => find_tile_position_miss h, hc t, fun h => ?_⟩
  rw [manhattan_eq_sum]
  apply Finset.sum_eq_zero
  intro u hu
  rw [Finset.mem_Icc] at hu
  exact hc u (Or.inl (h u hu.1 hu.2))

/-- Witness for claim C10 at the concrete value 9, absent from the goal
board. -/
theorem claim10_witness :
    ¬ occurs goal_board 9 ∧ find_tile_position goal_board 9 = (-1, -1) ∧
      calculate_tile_distance goal_board goal_board 9 = 0 :=
  ⟨by decide, (claim10_missing_tile_sentinel goal_board goal_board 9).1 (by decide),
    (claim10_missing_tile_sentinel goal_board goal_board 9).2.1 (Or.inl (by decide))⟩

/-- Claim C3 counterexample: on a board not containing the value 9, `locate`
(`find_tile_position`) does not fail with a `NotFound` error as the claim
states; it returns the ordinary in-band sentinel value `(-1, -1)` (the
Python code has no raise statement at all). -/
theorem claim3_counterexample :
    find_tile_position goal_board 9 = (-1, -1) :=
  find_tile_position_miss (by decide)

/-- Claim C3 (amended): for every valid board and every value, `locate`
(`find_tile_position`) returns the `(row, col)` of the unique cell holding
that value when the value is present, and returns the sentinel `(-1, -1)`
(rather than failing) when the board does not contain the value. -/
theorem claim3_locate (b : Board) (t : Nat) (hb : ValidBoard b) :
    (∀ i j, i < 3 → j < 3 → cell b i j = t →
      find_tile_position b t = ((i : Int), (j : Int)) ∧
        ∀ i2 j2, i2 < 3 → j2 < 3 → cell b i2 j2 = t → i2 = i ∧ j2 = j) ∧
    (¬ occurs b t → find_tile_position b t = (-1, -1)) :=
  ⟨fun _ _ hi hj h =>
    ⟨find_tile_position_of_cell hb hi hj h,
      fun _ _ hi2 hj2 h2 => cell_unique hb hi hj hi2 hj2 h h2⟩,
    fun h => find_tile_position_miss h⟩

/-- Witness for claim C3: tile 5 sits at cell (1,1) of the goal board and
is located there. -/
theorem claim3_witness :
    ValidBoard goal_board ∧ cell goal_board 1 1 = 5 ∧
      find_tile_position goal_board 5 = ((1 : Int), (1 : Int)) := by
  refine ⟨by decide, by decide, ?_⟩
  have h := ((claim3_locate goal_board 5 (by decide)).1 1 1 (by norm_num) (by norm_num)
    (by decide)).1
  exact_mod_cast h

/-! ### Claim C6: the Manhattan distance heuristic -/

/-- Claim C6: for valid boards, `manhattan_distance` is the sum over the
non-blank values 1..8 of the per-tile distances, the per-tile distance of a
value is the x-distance plus y-distance between the (unique) cells holding
that value in the two boards, `manhattan_distance b b = 0` for every board,
and the result is non-negative. -/
theorem claim6_manhattan (b g : Board) (hb : ValidBoard b) (hg : ValidBoard g) :
    manhattan_distance b g = (Finset.Icc 1 8).sum (fun t => calculate_tile_distance b g t) ∧
    (∀ t i j i2 j2 : Nat, 1 ≤ t → t ≤ 8 → i < 3 → j < 3 → i2 < 3 → j2 < 3 →
      cell b i j = t → cell g i2 j2 = t →
      calculate_tile_distance b g t = |(i : Int) - (i2 : Int)| + |(j : Int) - (j2 : Int)|) ∧
    manhattan_distance b b = 0 ∧ 0 ≤ manhattan_distance b g := by
  refine ⟨manhattan_eq_sum b g, ?_, manhattan_distance_self b, manhattan_distance_nonneg b g⟩
  intro t i j i2 j2 ht1 ht8 hi hj hi2 hj2 hc hc2
  have e1 := find_tile_position_of_cell hb hi hj hc
  have e2 := find_tile_position_of_cell hg hi2 hj2 hc2
  have ht0 : ¬ t = 0 := by omega
  have hne1 : ((i : Int)) ≠ -1 := by omega
  have hne2 : ((i2 : Int)) ≠ -1 := by omega
  simp [calculate_tile_distance, ht0, e1, e2, hne1, hne2]

/-- Witness for claim C6 on two concrete valid boards. -/
theorem claim6_witness :
    ValidBoard one_move_board ∧ ValidBoard goal_board ∧
      0 ≤ manhattan_distance one_move_board goal_board :=
  ⟨by decide, by decide,
    (claim6_manhattan one_move_board goal_board (by decide) (by decide)).2.2.2⟩

/-! ### Claim C2: input validation -/

/-- Claim C2 counterexample: the functional solver performs no validation
at all.  On the malformed all-zero board (which the modelled validator
correctly rejects), `solve` does not reject the input before searching; it
runs and returns an ordinary answer. -/
theorem claim2_counterexample :
    validate_input all_zero_board = false ∧
      solve0 all_zero_board all_zero_board 40 = some [all_zero_board] := by
  constructor
  · decide
  · rw [solve0, solve]
    norm_num

/-- Claim C2 (amended): the (spec-modelled) imperative `validate_input`
decides exactly the permutation invariant, but the functional solver never
invokes any validation: `solve` searches malformed boards without
rejection (see the counterexample for a concrete run). -/
theorem claim2_validator (b : Board) : validate_input b = true ↔ ValidBoard b := by
  constructor
  · intro h
    simp only [validate_input, Bool.and_eq_true, beq_iff_eq, List.all_eq_true] at h
    obtain ⟨⟨hlen, hrows⟩, hcount⟩ := h
    have hrows' : ∀ r ∈ b, r.length = 3 := fun r hr => by
      have := hrows r hr
      simpa using this
    refine ⟨hlen, hrows', ?_⟩
    have hflatlen : b.flatten.length = 9 := by
      obtain ⟨r0, r1, r2, rfl⟩ : ∃ x y z, b = [x, y, z] := by
        rcases b with _ | ⟨r0, _ | ⟨r1, _ | ⟨r2, _ | ⟨r3, b⟩⟩⟩⟩ <;> simp_all
      have h0 := hrows' r0 (by simp)
      have h1 := hrows' r1 (by simp)
      have h2 := hrows' r2 (by simp)
      simp [h0, h1, h2]
    have hsub : List.Subperm [0, 1, 2, 3, 4, 5, 6, 7, 8] b.flatten := by
      rw [List.subperm_ext_iff]
      intro x hx
      have hx9 : x < 9 := by
        simp only [List.mem_cons, List.not_mem_nil, or_false] at hx
        omega
      have hcx : b.flatten.count x = 1 := by
        have := hcount x (by simpa using hx9)
        simpa using this
      rw [hcx]
      interval_cases x <;> decide
    have hperm := hsub.perm_of_length_le (by rw [hflatlen]; norm_num)
    exact hperm.symm
  · rintro ⟨hlen, hrows, hperm⟩
    simp only [validate_input, Bool.and_eq_true, beq_iff_eq, List.all_eq_true]
    refine ⟨⟨hlen, fun r hr => by simp [hrows r hr]⟩, ?_⟩
    intro v hv
    have hv9 : v < 9 := by simpa using hv
    have := hperm.count_eq v
    rw [this]
    interval_cases v <;> decide

/-- Witness for claim C2 (amended), checking the validator on a valid and
an invalid concrete board. -/
theorem claim2_witness :
    (validate_input goal_board = true ↔ ValidBoard goal_board) ∧
      (validate_input all_zero_board = true ↔ ValidBoard all_zero_board) :=
  ⟨claim2_validator goal_board, claim2_validator all_zero_board⟩

/-! ### Claim C5: start equal to goal -/

/-- Claim C5: calling either solver with a valid board `g` as both start
and goal returns the single-element path `[g]` (zero moves): the functional
backtracking solver at its default depth bound 40, and the (spec-modelled)
breadth-first solver with any positive iteration budget. -/
theorem claim5_start_eq_goal (g : Board) (hg : ValidBoard g) (fuel : Nat) (hf : 1 ≤ fuel) :
    solve0 g g 40 = some [g] ∧ bfs g g fuel = some [g] := by
  constructor
  · rw [solve0, solve]
    norm_num
  · obtain ⟨f, rfl⟩ : ∃ f, fuel = f + 1 := ⟨fuel - 1, by omega⟩
    simp [bfs, bfs_loop]

/-- Witness for claim C5 at the concrete goal board with budget 1. -/
theorem claim5_witness :
    ValidBoard goal_board ∧ 1 ≤ 1 ∧
      (solve0 goal_board goal_board 40 = some [goal_board] ∧
        bfs goal_board goal_board 1 = some [goal_board]) :=
  ⟨by decide, le_refl 1, claim5_start_eq_goal goal_board (by decide) 1 (le_refl 1)⟩

/-! ### Claim C4: successor ordering -/

lemma insert_move_perm (m : Board) (s : List Board) (g : Board) :
    List.Perm (insert_move_by_heuristic m s g) (m :: s) := by
  induction s with
  | nil => simp [insert_move_by_heuristic]
  | cons first rest ih =>
    rw [insert_move_by_heuristic]
    by_cases h : manhattan_distance m g ≤ manhattan_distance first g
    · simp [h]
    · simp only [h, if_false]
      exact (ih.cons first).trans (List.Perm.swap m first rest)

lemma sort_moves_perm (g : Board) :
    ∀ un acc : List Board, List.Perm (sort_moves g un acc) (un ++ acc) := by
  intro un
  induction un with
  | nil => intro acc; simp [sort_moves]
  | cons m rest ih =>
    intro acc
    rw [sort_moves]
    refine ((ih _).trans ?_)
    refine ((insert_move_perm m acc g).append_left rest).trans ?_
    simpa using List.perm_middle

lemma sort_by_heuristic_perm (moves : List Board) (g : Board) :
    List.Perm (sort_moves_by_heuristic moves g) moves := by
  simpa using sort_moves_perm g moves []

lemma insert_move_sorted (m : Board) (g : Board) :
    ∀ s : List Board,
      List.Sorted (fun a b => manhattan_distance a g ≤ manhattan_distance b g) s →
      List.Sorted (fun a b => manhattan_distance a g ≤ manhattan_distance b g)
        (insert_move_by_heuristic m s g) := by
  intro s
  induction s with
  | nil => intro _; simp [insert_move_by_heuristic]
  | cons first rest ih =>
    intro hs
    rw [List.sorted_cons] at hs
    obtain ⟨hfirst, hrest⟩ := hs
    rw [insert_move_by_heuristic]
    by_cases h : manhattan_distance m g ≤ manhattan_distance first g
    · simp only [h, if_true]
      rw [List.sorted_cons]
      refine ⟨?_, by rw [List.sorted_cons]; exact ⟨hfirst, hrest⟩⟩
      intro x hx
      rcases List.mem_cons.1 hx with rfl | hx
      · exact h
      · exact h.trans (hfirst x hx)
    · simp only [h, if_false]
      rw [List.sorted_cons]
      refine ⟨?_, ih hrest⟩
      intro x hx
      have hx' : x ∈ m :: rest := (insert_move_perm m rest g).mem_iff.1 hx
      rcases List.mem_cons.1 hx' with rfl | hx'
      · exact le_of_not_le h
      · exact hfirst x hx'

lemma sort_moves_sorted (g : Board) :
    ∀ un acc : List Board,
      List.Sorted (fun a b => manhattan_distance a g ≤ manhattan_distance b g) acc →
      List.Sorted (fun a b => manhattan_distance a g ≤ manhattan_distance b g)
        (sort_moves g un acc) := by
  intro un
  induction un with
  | nil => intro acc h; simpa [sort_moves] using h
  | cons m rest ih =>
    intro acc h
    rw [sort_moves]
    exact ih _ (insert_move_sorted m g acc h)

lemma insert_move_filter (m : Board) (g : Board) (d : Int) :
    ∀ s : List Board,
      (insert_move_by_heuristic m s g).filter (fun x => manhattan_distance x g == d) =
        if manhattan_distance m g = d then
          m :: s.filter (fun x => manhattan_distance x g == d)
        else s.filter (fun x => manhattan_distance x g == d) := by
  intro s
  induction s with
  | nil =>
    rw [insert_move_by_heuristic]
    by_cases hd : manhattan_distance m g = d <;> simp [hd]
  | cons first rest ih =>
    rw [insert_move_by_heuristic]
    by_cases h : manhattan_distance m g ≤ manhattan_distance first g
    · simp only [h, if_true]
      by_cases hd : manhattan_distance m g = d <;>
        simp [List.filter_cons, hd]
    · simp only [h, if_false]
      rw [List.filter_cons, ih]
      by_cases hd : manhattan_distance m g = d
      · by_cases hfd : manhattan_distance first g = d
        · exfalso; exact h (by rw [hd, hfd])
        · simp [hd, hfd, List.filter_cons]
      · by_cases hfd : manhattan_distance first g = d <;>
          simp [hd, hfd, List.filter_cons]

lemma sort_moves_filter (g : Board) (d : Int) :
    ∀ un acc : List Board,
      (sort_moves g un acc).filter (fun x => manhattan_distance x g == d) =
        (un.filter (fun x => manhattan_distance x g == d)).reverse ++
          acc.filter (fun x => manhattan_distance x g == d) := by
  intro un
  induction un with
  | nil => intro acc; simp [sort_moves]
  | cons m rest ih =>
    intro acc
    rw [sort_moves, ih, insert_move_filter]
    by_cases hd : manhattan_distance m g = d <;>
      simp [hd, List.filter_cons]

set_option maxRecDepth 8000 in
/-- Claim C4 counterexample: the two successors of the goal board (blank
slid up, then blank slid left) have equal Manhattan distance 1 to the goal,
yet `sort_moves_by_heuristic` emits them in the reverse of their generation
order, so the sort is not stable as the claim states. -/
theorem claim4_counterexample :
    next_states goal_board = [up_move_board, one_move_board] ∧
    manhattan_distance up_move_board goal_board =
      manhattan_distance one_move_board goal_board ∧
    up_move_board ≠ one_move_board ∧
    sort_moves_by_heuristic (next_states goal_board) goal_board =
      [one_move_board, up_move_board] := by
  have h1 : find_zero goal_board = (2, 2) := by
    simp [find_zero, find_zero_search, cell, goal_board]
  have hns : next_states goal_board = [up_move_board, one_move_board] := by
    rw [next_states, h1]
    simp [generate_moves, directions, swap, build_board, build_cell, cell, goal_board,
      up_move_board, one_move_board]
  have hmu : manhattan_distance up_move_board goal_board = 1 := by
    simp [manhattan_distance, sum_distances, calculate_tile_distance, find_tile_position,
      find_tile_search, cell, goal_board, up_move_board]
  have hmo : manhattan_distance one_move_board goal_board = 1 := by
    simp [manhattan_distance, sum_distances, calculate_tile_distance, find_tile_position,
      find_tile_search, cell, goal_board, one_move_board]
  refine ⟨hns, by rw [hmu, hmo], by decide, ?_⟩
  rw [hns]
  rw [sort_moves_by_heuristic, sort_moves, sort_moves, sort_moves]
  rw [insert_move_by_heuristic, insert_move_by_heuristic]
  simp [hmu, hmo]

/-- Claim C4 (amended): the bounded search's successor ordering sorts the
successors ascending by `manhattan_distance(successor, goal)` (the result
is a permutation of its input), but the sort is not stable: each successor
is inserted in front of previously placed equal-distance successors, so
successors with equal distance appear in the reverse of their original
generation order. -/
theorem claim4_sort (moves : List Board) (goal : Board) :
    List.Perm (sort_moves_by_heuristic moves goal) moves ∧
    List.Sorted (fun a b => manhattan_distance a goal ≤ manhattan_distance b goal)
      (sort_moves_by_heuristic moves goal) ∧
    ∀ d : Int,
      (sort_moves_by_heuristic moves goal).filter (fun x => manhattan_distance x goal == d) =
        (moves.filter (fun x => manhattan_distance x goal == d)).reverse := by
  refine ⟨sort_by_heuristic_perm moves goal, ?_, fun d => ?_⟩
  · exact sort_moves_sorted goal moves [] (by simp)
  · simpa using sort_moves_filter goal d moves []

/-! ### Claim C8: the promising filter and first-success return -/

lemma try_moves_eq_first_success (board goal : Board) (path : List Board) (max_depth : Nat)
    (cd : Int) :
    ∀ moves : List Board,
      try_moves board goal path max_depth cd moves =
        first_success (fun s => solve s goal (path ++ [s]) max_depth)
          (moves.filter (fun s => decide (s ∉ path) && is_move_promising s goal cd)) := by
  intro moves
  induction moves with
  | nil => rw [try_moves]; simp [first_success]
  | cons nb rest ih =>
    rw [try_moves]
    by_cases h : nb ∉ path ∧ is_move_promising nb goal cd = true
    · rw [if_pos h, List.filter_cons, if_pos (by simp [h.1, h.2])]
      rw [first_success]
      cases hs : solve nb goal (path ++ [nb]) max_depth with
      | some r =>
        by_cases hr : r = [] <;> simp [hs, hr, ih]
      | none => simp [hs, ih]
    · rw [if_neg h, List.filter_cons, if_neg (by simpa [Bool.and_eq_true, decide_eq_true_iff] using h)]
      exact ih

lemma first_success_of_prefix (f : Board → Option (List Board)) :
    ∀ (pre : List Board) (s : Board) (post : List Board) (r : List Board),
      (∀ x ∈ pre, f x = none ∨ f x = some []) → f s = some r → r ≠ [] →
      first_success f (pre ++ s :: post) = some r := by
  intro pre
  induction pre with
  | nil =>
    intro s post r _ hs hr
    rw [List.nil_append, first_success]
    simp [hs, hr]
  | cons x xs ih =>
    intro s post r hpre hs hr
    rw [List.cons_append, first_success]
    rcases hpre x (by simp) with hx | hx
    · simp only [hx]
      exact ih s post r (fun y hy => hpre y (by simp [hy])) hs hr
    · simp only [hx, if_pos rfl]
      exact ih s post r (fun y hy => hpre y (by simp [hy])) hs hr

/-- Claim C8: in the bounded backtracking search, the successor loop
recurses exactly on the sorted successors that are not already in the
current path and satisfy the promising filter
`manhattan_distance(s, goal) <= current_distance + 2`, and it returns on
the first successful recursive call: the loop equals "filter, then first
success", and any filtered successor whose recursive call succeeds (with a
non-empty path) after only failing predecessors is the returned result. -/
theorem claim8_promising_filter (board goal : Board) (path : List Board) (max_depth : Nat)
    (cd : Int) (moves : List Board) :
    (try_moves board goal path max_depth cd moves =
      first_success (fun s => solve s goal (path ++ [s]) max_depth)
        (moves.filter (fun s => decide (s ∉ path) && is_move_promising s goal cd))) ∧
    (∀ (pre : List Board) (s : Board) (post : List Board) (r : List Board),
      moves.filter (fun s => decide (s ∉ path) && is_move_promising s goal cd) =
        pre ++ s :: post →
      (∀ x ∈ pre, solve x goal (path ++ [x]) max_depth = none ∨
        solve x goal (path ++ [x]) max_depth = some []) →
      solve s goal (path ++ [s]) max_depth = some r → r ≠ [] →
      try_moves board goal path max_depth cd moves = some r) := by
  refine ⟨try_moves_eq_first_success board goal path max_depth cd moves, ?_⟩
  intro pre s post r hfil hpre hs hr
  rw [try_moves_eq_first_success board goal path max_depth cd moves, hfil]
  exact first_success_of_prefix _ pre s post r hpre hs hr

/-- Witness for claim C8: from the board one move before the goal, the
(sole, promising) successor is the goal itself and the loop returns its
solution immediately. -/
theorem claim8_witness :
    try_moves one_move_board goal_board [one_move_board] 40 1 [goal_board] =
      some [one_move_board, goal_board] := by
  have hprom : is_move_promising goal_board goal_board 1 = true := by
    simp [is_move_promising, manhattan_distance_self]
  have hfil : [goal_board].filter
      (fun s => decide (s ∉ [one_move_board]) && is_move_promising s goal_board 1) =
      [] ++ goal_board :: [] := by
    rw [List.filter_cons]
    rw [if_pos (by simp [hprom]; decide)]
    rfl
  have hs : solve goal_board goal_board ([one_move_board] ++ [goal_board]) 40 =
      some [one_move_board, goal_board] := by
    rw [solve]
    norm_num
  exact (claim8_promising_filter one_move_board goal_board [one_move_board] 40 1
    [goal_board]).2 [] goal_board [] [one_move_board, goal_board] hfil (by simp) hs (by simp)

/-! ### Claim C9: returned paths are genuine simple move paths -/

lemma try_moves_some (board goal : Board) (path : List Board) (max_depth : Nat) (cd : Int) :
    ∀ moves p, try_moves board goal path max_depth cd moves = some p →
      ∃ s ∈ moves, (s ∉ path ∧ is_move_promising s goal cd = true) ∧
        solve s goal (path ++ [s]) max_depth = some p := by
  intro moves
  induction moves with
  | nil => intro p h; rw [try_moves] at h; exact absurd h (by simp)
  | cons nb rest ih =>
    intro p h
    rw [try_moves] at h
    by_cases hc : nb ∉ path ∧ is_move_promising nb goal cd = true
    · rw [if_pos hc] at h
      split at h
      case _ r hs =>
        by_cases hr : r = []
        · rw [if_pos hr] at h
          obtain ⟨s, hsm, hsc, hss⟩ := ih p h
          exact ⟨s, by simp [hsm], hsc, hss⟩
        · rw [if_neg hr] at h
          have hrp : r = p := by injection h
          exact ⟨nb, by simp, hc, by rw [hs, hrp]⟩
      case _ hs =>
        obtain ⟨s, hsm, hsc, hss⟩ := ih p h
        exact ⟨s, by simp [hsm], hsc, hss⟩
    · rw [if_neg hc] at h
      obtain ⟨s, hsm, hsc, hss⟩ := ih p h
      exact ⟨s, by simp [hsm], hsc, hss⟩

lemma solve_sound_aux (start goal : Board) (max_depth : Nat) :
    ∀ k (path : List Board) (board : Board) (p : List Board),
      max_depth + 2 - path.length ≤ k →
      path ≠ [] → path.head? = some start → path.getLast? = some board →
      List.Chain' (fun a b => b ∈ next_states a) path → path.Nodup →
      solve board goal path max_depth = some p →
      p.head? = some start ∧ p.getLast? = some goal ∧
        List.Chain' (fun a b => b ∈ next_states a) p ∧ p.Nodup := by
  intro k
  induction k with
  | zero =>
    intro path board p hk _ _ _ _ _ hsol
    rw [solve, if_pos (by omega)] at hsol
    exact absurd hsol (by simp)
  | succ k ih =>
    intro path board p hk hne hhead hlast hchain hnd hsol
    rw [solve] at hsol
    by_cases hd : path.length > max_depth
    · rw [if_pos hd] at hsol; exact absurd hsol (by simp)
    rw [if_neg hd] at hsol
    by_cases hg : board = goal
    · rw [if_pos hg] at hsol
      have hp : path = p := by injection hsol
      subst hp
      exact ⟨hhead, hg ▸ hlast, hchain, hnd⟩
    rw [if_neg hg] at hsol
    simp only [] at hsol
    by_cases hcyc : board ∈ path.dropLast
    · rw [if_pos hcyc] at hsol; exact absurd hsol (by simp)
    rw [if_neg hcyc] at hsol
    by_cases hpr : path.length > 25 ∧
        10 * manhattan_distance board goal > 13 * (path.length : Int)
    · rw [if_pos hpr] at hsol; exact absurd hsol (by simp)
    rw [if_neg hpr] at hsol
    obtain ⟨s, hsmem, ⟨hsnotin, _⟩, hsolve⟩ :=
      try_moves_some board goal path max_depth (manhattan_distance board goal) _ p hsol
    have hsnext : s ∈ next_states board :=
      (sort_by_heuristic_perm (next_states board) goal).subset hsmem
    refine ih (path ++ [s]) s p ?_ (by simp) ?_ (by simp) ?_ ?_ hsolve
    · simp only [List.length_append, List.length_singleton]
      omega
    · rw [List.head?_append_of_ne_nil _ hne]
      exact hhead
    · rw [List.chain'_append]
      refine ⟨hchain, by simp, ?_⟩
      intro x hx y hy
      simp only [List.head?_cons, Option.mem_def, Option.some.injEq] at hy
      rw [hlast] at hx
      simp only [Option.mem_def, Option.some.injEq] at hx
      subst hx; subst hy
      exact hsnext
    · simp only [List.nodup_append, List.nodup_cons, List.nodup_nil, and_true,
        List.not_mem_nil, not_false_iff]
      exact ⟨hnd, by simpa [List.disjoint_singleton] using hsnotin⟩

/-- Claim C9: whenever the bounded backtracking search returns a path, that
path starts at the start board, ends at the goal board, each consecutive
pair of boards differs by exactly one legal move (membership in
`next_states`), and no board repeats within the path. -/
theorem claim9_path_invariants (start goal : Board) (max_depth : Nat) (p : List Board)
    (h : solve0 start goal max_depth = some p) :
    p.head? = some start ∧ p.getLast? = some goal ∧
      List.Chain' (fun a b => b ∈ next_states a) p ∧ p.Nodup :=
  solve_sound_aux start goal max_depth (max_depth + 2) [start] start p
    (by simp) (by simp) rfl rfl (by simp) (by simp) h

set_option maxRecDepth 8000 in
/-- Witness for claim C9: a concrete one-move solve whose returned path
satisfies all four path invariants. -/
theorem claim9_witness :
    solve0 one_move_board goal_board 40 = some [one_move_board, goal_board] ∧
      ([one_move_board, goal_board].head? = some one_move_board ∧
        [one_move_board, goal_board].getLast? = some goal_board ∧
        List.Chain' (fun a b => b ∈ next_states a) [one_move_board, goal_board] ∧
        [one_move_board, goal_board].Nodup) := by
  have h1 : find_zero one_move_board = (2, 1) := by
    simp [find_zero, find_zero_search, cell, one_move_board]
  have hns : next_states one_move_board =
      [[[1, 2, 3], [4, 0, 6], [7, 5, 8]], [[1, 2, 3], [4, 5, 6], [0, 7, 8]], goal_board] := by
    rw [next_states, h1]
    simp [generate_moves, directions, swap, build_board, build_cell, cell, one_move_board,
      goal_board]
  have hmU : manhattan_distance [[1, 2, 3], [4, 0, 6], [7, 5, 8]] goal_board = 2 := by
    simp [manhattan_distance, sum_distances, calculate_tile_distance, find_tile_position,
      find_tile_search, cell, goal_board]
  have hmL : manhattan_distance [[1, 2, 3], [4, 5, 6], [0, 7, 8]] goal_board = 2 := by
    simp [manhattan_distance, sum_distances, calculate_tile_distance, find_tile_position,
      find_tile_search, cell, goal_board]
  have hmG : manhattan_distance goal_board goal_board = 0 := manhattan_distance_self _
  have hmO : manhattan_distance one_move_board goal_board = 1 := by
    simp [manhattan_distance, sum_distances, calculate_tile_distance, find_tile_position,
      find_tile_search, cell, goal_board, one_move_board]
  have hsort : sort_moves_by_heuristic (next_states one_move_board) goal_board =
      [goal_board, [[1, 2, 3], [4, 5, 6], [0, 7, 8]], [[1, 2, 3], [4, 0, 6], [7, 5, 8]]] := by
    rw [hns, sort_moves_by_heuristic, sort_moves, sort_moves, sort_moves, sort_moves]
    rw [insert_move_by_heuristic]
    rw [insert_move_by_heuristic]
    simp only [hmU, hmL, hmG]
    norm_num
    rw [insert_move_by_heuristic]
    simp only [hmG, hmL]
    norm_num
  have hsolveG : solve goal_board goal_board ([one_move_board] ++ [goal_board]) 40 =
      some [one_move_board, goal_board] := by
    rw [solve]
    norm_num
  have hmain : solve0 one_move_board goal_board 40 = some [one_move_board, goal_board] := by
    rw [solve0, solve]
    rw [if_neg (by norm_num), if_neg (by decide)]
    simp only [hmO, hsort]
    rw [if_neg (by simp [one_move_board]), if_neg (by norm_num)]
    rw [try_moves]
    rw [if_pos ⟨by decide, by simp [is_move_promising, hmG]⟩]
    rw [hsolveG]
    simp
  exact ⟨hmain, claim9_path_invariants one_move_board goal_board 40 _ hmain⟩

/-! ### Claim C7: the move generator -/

lemma build_cell_eq (b : Board) (r1 c1 r2 c2 i : Nat) (row : List Nat) :
    build_cell b r1 c1 r2 c2 i row 0 =
      [if i = r1 ∧ 0 = c1 then cell b r2 c2
        else if i = r2 ∧ 0 = c2 then cell b r1 c1 else row.getD 0 9,
       if i = r1 ∧ 1 = c1 then cell b r2 c2
        else if i = r2 ∧ 1 = c2 then cell b r1 c1 else row.getD 1 9,
       if i = r1 ∧ 2 = c1 then cell b r2 c2
        else if i = r2 ∧ 2 = c2 then cell b r1 c1 else row.getD 2 9] := by
  rw [build_cell, build_cell, build_cell, build_cell]
  norm_num

lemma swap_eq (b : Board) (hlen : b.length = 3) (r1 c1 r2 c2 : Nat) :
    swap b r1 c1 r2 c2 =
      [build_cell b r1 c1 r2 c2 0 (b.getD 0 []) 0,
       build_cell b r1 c1 r2 c2 1 (b.getD 1 []) 0,
       build_cell b r1 c1 r2 c2 2 (b.getD 2 []) 0] := by
  rw [swap, build_board, build_board, build_board, build_board]
  simp [hlen]

lemma cell_swap (b : Board) (hlen : b.length = 3) (r1 c1 r2 c2 : Nat) :
    ∀ i j, i < 3 → j < 3 →
      cell (swap b r1 c1 r2 c2) i j =
        if i = r1 ∧ j = c1 then cell b r2 c2
        else if i = r2 ∧ j = c2 then cell b r1 c1
        else cell b i j := by
  intro i j hi hj
  rw [swap_eq b hlen]
  interval_cases i <;> interval_cases j <;>
    simp [cell, build_cell_eq]

lemma in_bounds_cells_bounds {l : List (Int × Int)} {q : Nat × Nat}
    (h : q ∈ in_bounds_cells l) : q.1 < 3 ∧ q.2 < 3 := by
  rw [in_bounds_cells, List.mem_map] at h
  obtain ⟨p, hp, rfl⟩ := h
  rw [List.mem_filter] at hp
  have := hp.2
  simp only [Bool.and_eq_true, decide_eq_true_iff] at this
  obtain ⟨⟨⟨h1, h2⟩, h3⟩, h4⟩ := this
  constructor <;> omega

lemma exchange_of_mem (b : Board) (hlen : b.length = 3) (r c : Nat) :
    ∀ s ∈ (in_bounds_cells (neighbor_cells r c)).map (fun q => swap b r c q.1 q.2),
      ∃ q ∈ in_bounds_cells (neighbor_cells r c), is_exchange b r c q.1 q.2 s := by
  intro s hs
  rw [List.mem_map] at hs
  obtain ⟨q, hq, rfl⟩ := hs
  exact ⟨q, hq, fun i j hi hj => cell_swap b hlen r c q.1 q.2 i j hi hj⟩

set_option maxRecDepth 8000 in
/-- Claim C7: for every valid board, the blank sits at a unique in-range
cell `(r, c)`; `next_states` is exactly the list of one-blank-slide boards
taken in the fixed direction order up, down, left, right restricted to
in-bounds target cells; it has 4 successors when the blank is in the
center, 3 on an edge, 2 in a corner; and every listed successor is the
input board with the blank exchanged with the corresponding in-bounds
adjacent cell and all other cells unchanged. -/
theorem claim7_successors (b : Board) (hb : ValidBoard b) :
    ∃ r c : Nat, r < 3 ∧ c < 3 ∧ find_zero b = ((r : Int), (c : Int)) ∧ cell b r c = 0 ∧
      next_states b =
        (in_bounds_cells (neighbor_cells r c)).map (fun q => swap b r c q.1 q.2) ∧
      (next_states b).length =
        (if r = 1 ∧ c = 1 then 4 else if r = 1 ∨ c = 1 then 3 else 2) ∧
      ∀ s ∈ (in_bounds_cells (neighbor_cells r c)).map (fun q => swap b r c q.1 q.2),
        ∃ q ∈ in_bounds_cells (neighbor_cells r c), is_exchange b r c q.1 q.2 s := by
  obtain ⟨r, c, hr, hc, hz, h0⟩ := find_zero_spec b hb
  have hlen : b.length = 3 := hb.1
  interval_cases r <;> interval_cases c <;>
    refine ⟨_, _, ?_, ?_, hz, h0, ?_, ?_, exchange_of_mem b hlen _ _⟩ <;>
    simp [next_states, hz, generate_moves, directions, in_bounds_cells, neighbor_cells]

/-- Witness for claim C7 at the concrete goal board. -/
theorem claim7_witness :
    ValidBoard goal_board ∧
      ∃ r c : Nat, r < 3 ∧ c < 3 ∧
        find_zero goal_board = ((r : Int), (c : Int)) ∧ cell goal_board r c = 0 ∧
        next_states goal_board =
          (in_bounds_cells (neighbor_cells r c)).map (fun q => swap goal_board r c q.1 q.2) ∧
        (next_states goal_board).length =
          (if r = 1 ∧ c = 1 then 4 else if r = 1 ∨ c = 1 then 3 else 2) ∧
        ∀ s ∈ (in_bounds_cells (neighbor_cells r c)).map
            (fun q => swap goal_board r c q.1 q.2),
          ∃ q ∈ in_bounds_cells (neighbor_cells r c),
            is_exchange goal_board r c q.1 q.2 s :=
  ⟨by decide, claim7_successors goal_board (by decide)⟩

lemma pathfrom_ne_nil {start v : Board} {q : List Board} (h : PathFrom start v q) : q ≠ [] := by
  intro hq
  rw [hq] at h
  simp [PathFrom] at h

lemma pathfrom_singleton {start v x : Board} (h : PathFrom start v [x]) : x = start ∧ v = x := by
  obtain ⟨h1, h2, _⟩ := h
  simp at h1 h2
  constructor <;> simp_all

lemma pathfrom_length_pos {start v : Board} {q : List Board} (h : PathFrom start v q) :
    1 ≤ q.length := by
  have := pathfrom_ne_nil h
  cases q
  · simp at this
  · simp

lemma pathfrom_extend {start b c : Board} {p : List Board} (hne : p ≠ [])
    (hb : p.head? = some b) (h : PathFrom start b p.reverse) (hc : c ∈ next_states b) :
    PathFrom start c ((c :: p).reverse) := by
  obtain ⟨h1, h2, h3⟩ := h
  refine ⟨?_, ?_, ?_⟩
  · rw [List.reverse_cons, List.head?_append_of_ne_nil _ (by simpa using hne)]
    exact h1
  · rw [List.reverse_cons, List.getLast?_concat]
  · rw [List.reverse_cons, List.chain'_append]
    refine ⟨h3, by simp, ?_⟩
    intro x hx y hy
    simp only [List.head?_cons, Option.mem_def, Option.some.injEq] at hy
    rw [List.getLast?_reverse, hb] at hx
    simp only [Option.mem_def, Option.some.injEq] at hx
    subst hx; subst hy
    exact hc

lemma pathfrom_snoc_split {start v : Board} {q : List Board} (h : PathFrom start v q)
    (hlen : 2 ≤ q.length) :
    ∃ u q', q = q' ++ [v] ∧ q'.getLast? = some u ∧ PathFrom start u q' ∧
      v ∈ next_states u := by
  obtain ⟨h1, h2, h3⟩ := h
  have hne : q ≠ [] := by cases q <;> simp_all
  have hsplit : q.dropLast ++ [v] = q := List.dropLast_append_getLast? v (by exact h2)
  have hdne : q.dropLast ≠ [] := by
    intro hd
    rw [hd] at hsplit
    rw [← hsplit] at hlen
    simp at hlen
  obtain ⟨u, hu⟩ : ∃ u, q.dropLast.getLast? = some u := by
    cases hq : q.dropLast.getLast?
    · rw [List.getLast?_eq_none_iff] at hq
      exact absurd hq hdne
    · exact ⟨_, rfl⟩
  refine ⟨u, q.dropLast, hsplit.symm, hu, ⟨?_, hu, ?_⟩, ?_⟩
  · rw [← hsplit] at h1
    rw [List.head?_append_of_ne_nil _ hdne] at h1
    exact h1
  · rw [← hsplit] at h3
    exact (List.chain'_append.1 h3).1
  · rw [← hsplit] at h3
    have := (List.chain'_append.1 h3).2.2
    exact this u (by rw [hu]; rfl) v (by rfl)

lemma enqueue_children_spec (p : List Board) :
    ∀ (cs : List Board) (Q : List (List Board)) (V : List Board),
      ∃ extra : List (List Board),
        (enqueue_children p cs Q V).1 = Q ++ extra ∧
        (∀ q ∈ extra, ∃ c, c ∈ cs ∧ q = c :: p ∧ c ∉ V) ∧
        (∀ x ∈ (enqueue_children p cs Q V).2, x ∈ V ∨ x ∈ cs) ∧
        (∀ x ∈ V, x ∈ (enqueue_children p cs Q V).2) ∧
        (∀ c ∈ cs, c ∈ (enqueue_children p cs Q V).2) ∧
        (∀ x ∈ (enqueue_children p cs Q V).2, x ∉ V → ∃ q ∈ extra, q.head? = some x) := by
  intro cs
  induction cs with
  | nil =>
    intro Q V
    refine ⟨[], by simp [enqueue_children], by simp, ?_, ?_, by simp, ?_⟩
    · intro x hx; rw [enqueue_children] at hx; exact Or.inl hx
    · intro x hx; rw [enqueue_children]; exact hx
    · intro x hx hxv; rw [enqueue_children] at hx; exact absurd hx hxv
  | cons c cs ih =>
    intro Q V
    by_cases hcv : c ∈ V
    · obtain ⟨extra, he1, he2, he3, he4, he5, he6⟩ := ih Q V
      rw [enqueue_children, if_pos hcv]
      refine ⟨extra, he1, ?_, ?_, he4, ?_, ?_⟩
      · intro q hq
        obtain ⟨d, hd1, hd2, hd3⟩ := he2 q hq
        exact ⟨d, by simp [hd1], hd2, hd3⟩
      · intro x hx
        rcases he3 x hx with h | h
        · exact Or.inl h
        · exact Or.inr (by simp [h])
      · intro d hd
        rcases List.mem_cons.1 hd with rfl | hd
        · exact he4 d hcv
        · exact he5 d hd
      · intro x hx hxv
        exact he6 x hx hxv
    · obtain ⟨extra, he1, he2, he3, he4, he5, he6⟩ := ih (Q ++ [c :: p]) (V ++ [c])
      rw [enqueue_children, if_neg hcv]
      refine ⟨[c :: p] ++ extra, by rw [he1]; simp, ?_, ?_, ?_, ?_, ?_⟩
      · intro q hq
        rcases List.mem_append.1 hq with h | h
        · refine ⟨c, by simp, by simpa using h, hcv⟩
        · obtain ⟨d, hd1, hd2, hd3⟩ := he2 q h
          refine ⟨d, by simp [hd1], hd2, fun hdv => hd3 (by simp [hdv])⟩
      · intro x hx
        rcases he3 x hx with h | h
        · rcases List.mem_append.1 h with h | h
          · exact Or.inl h
          · exact Or.inr (by simpa using Or.inl (by simpa using h))
        · exact Or.inr (by simp [h])
      · intro x hx
        exact he4 x (by simp [hx])
      · intro d hd
        rcases List.mem_cons.1 hd with rfl | hd
        · exact he4 d (by simp)
        · exact he5 d hd
      · intro x hx hxv
        by_cases hxc : x = c
        · refine ⟨c :: p, by simp, ?_⟩
          simp [hxc]
        · obtain ⟨q, hq1, hq2⟩ := he6 x hx (by simp [hxv, hxc])
          exact ⟨q, by simp [hq1], hq2⟩

lemma visited_closed_reach (start : Board) (V : List Board)
    (hstart : start ∈ V) (hclosed : ∀ v ∈ V, ∀ w ∈ next_states v, w ∈ V) :
    ∀ (q : List Board) (v : Board), PathFrom start v q → v ∈ V := by
  suffices H : ∀ (m : Nat) (q : List Board) (v : Board), q.length ≤ m →
      PathFrom start v q → v ∈ V by
    intro q v hq
    exact H q.length q v (le_refl _) hq
  intro m
  induction m with
  | zero =>
    intro q v hq hp
    have := pathfrom_length_pos hp
    omega
  | succ m ih =>
    intro q v hq hp
    by_cases h1 : q.length ≤ 1
    · have : q.length = 1 := by have := pathfrom_length_pos hp; omega
      obtain ⟨x, rfl⟩ : ∃ x, q = [x] := by
        cases q with
        | nil => simp at this
        | cons a t => cases t with
          | nil => exact ⟨a, rfl⟩
          | cons b u => simp at this
      obtain ⟨hx, hv⟩ := pathfrom_singleton hp
      rw [hv, hx]
      exact hstart
    · obtain ⟨u, q', hq', hu, hpu, hnext⟩ := pathfrom_snoc_split hp (by omega)
      have hql : q'.length ≤ m := by
        rw [hq'] at hq
        simp at hq
        omega
      have huV := ih q' u hql hpu
      exact hclosed u huV v hnext

lemma bfs_inv_empty_no_path {start goal : Board} {V : List Board} {n : Nat}
    (inv : BfsInv start goal [] V n) : ¬ ∃ q, PathFrom start goal q := by
  rintro ⟨q, hq⟩
  have hclosed : ∀ v ∈ V, ∀ w ∈ next_states v, w ∈ V := by
    intro v hv
    rcases inv.expanded v hv with ⟨p, hp, _⟩ | h
    · exact absurd hp (List.not_mem_nil p)
    · exact h
  have hgv : goal ∈ V := visited_closed_reach start V inv.start_visited hclosed q goal hq
  obtain ⟨p, hp, _⟩ := inv.goal_queued hgv
  exact absurd hp (List.not_mem_nil p)

lemma bfs_inv_level_le {start goal : Board} {Q : List (List Board)} {V : List Board} {n : Nat}
    (inv : BfsInv start goal Q V n) {q : List Board} (hq : PathFrom start goal q) :
    n ≤ q.length := by
  by_contra h
  push_neg at h
  have hgv : goal ∈ V := inv.reach_visited goal q hq (by omega)
  obtain ⟨p, hpQ, hph⟩ := inv.goal_queued hgv
  have hle : p.length ≤ q.length := inv.shortest p hpQ goal hph q hq
  obtain ⟨A, B, hAB, hA, hB⟩ := inv.levels
  rw [hAB] at hpQ
  rcases List.mem_append.1 hpQ with hpA | hpB
  · have := hA p hpA; omega
  · have := hB p hpB; omega

lemma bfs_inv_advance {start goal : Board} {Q : List (List Board)} {V : List Board} {n : Nat}
    (inv : BfsInv start goal Q V n) (hall : ∀ p ∈ Q, p.length = n + 1) :
    BfsInv start goal Q V (n + 1) := by
  refine ⟨by omega, ⟨Q, [], by simp, hall, by simp⟩, inv.valid, inv.start_visited,
    inv.heads_visited, inv.shortest, ?_, inv.expanded, inv.goal_queued⟩
  intro v q hq hlen
  by_cases hle : q.length ≤ n
  · exact inv.reach_visited v q hq hle
  · have hq2 : 2 ≤ q.length := by have := inv.npos; omega
    obtain ⟨u, q', hq', hu, hpu, hnext⟩ := pathfrom_snoc_split hq hq2
    have hq'n : q'.length ≤ n := by
      rw [hq'] at hlen
      simp at hlen
      omega
    have huV := inv.reach_visited u q' hpu hq'n
    rcases inv.expanded u huV with ⟨pu, hpuQ, hpuh⟩ | hcl
    · have hpul : pu.length = n + 1 := hall pu hpuQ
      have := inv.shortest pu hpuQ u hpuh q' hpu
      omega
    · exact hcl v hnext

lemma bfs_inv_step {start goal : Board} {p : List Board} {rest : List (List Board)}
    {V : List Board} {n : Nat} {b : Board}
    (inv : BfsInv start goal (p :: rest) V n) (hph : p.head? = some b)
    (hbg : b ≠ goal) (hp : p.length = n) :
    BfsInv start goal (enqueue_children p (next_states b) rest V).1
      (enqueue_children p (next_states b) rest V).2 n ∧
    countN n (enqueue_children p (next_states b) rest V).1 < countN n (p :: rest) := by
  obtain ⟨extra, he1, he2, he3, he4, he5, he6⟩ := enqueue_children_spec p (next_states b) rest V
  have hpmem : p ∈ p :: rest := List.mem_cons_self p rest
  have hpne : p ≠ [] := by intro h; rw [h] at hph; simp at hph
  have hpath : PathFrom start b p.reverse := by
    obtain ⟨b', hb', hpath⟩ := inv.valid p hpmem
    have hbb : b' = b := by rw [hph] at hb'; injection hb' with h; exact h.symm
    rw [← hbb]
    exact hpath
  have hextra_len : ∀ q ∈ extra, q.length = n + 1 := by
    intro q hq
    obtain ⟨c, _, rfl, _⟩ := he2 q hq
    simp [hp]
  have hextra_valid : ∀ q ∈ extra, ∃ c, q.head? = some c ∧ PathFrom start c q.reverse := by
    intro q hq
    obtain ⟨c, hcn, rfl, _⟩ := he2 q hq
    exact ⟨c, rfl, pathfrom_extend hpne hph hpath hcn⟩
  have hextra_shortest : ∀ q ∈ extra, ∀ c, q.head? = some c →
      ∀ qq, PathFrom start c qq → q.length ≤ qq.length := by
    intro q hq c hc qq hqq
    obtain ⟨c', hcn, rfl, hcv⟩ := he2 q hq
    have hcc : c' = c := by simpa using hc
    subst hcc
    by_contra hcon
    push_neg at hcon
    have hqqn : qq.length ≤ n := by
      have : (c' :: p).length = n + 1 := by simp [hp]
      omega
    exact hcv (inv.reach_visited c' qq hqq hqqn)
  obtain ⟨A, B, hAB, hA, hB⟩ := inv.levels
  obtain ⟨A', rfl, hrest⟩ : ∃ A', A = p :: A' ∧ rest = A' ++ B := by
    cases A with
    | nil =>
      rw [List.nil_append] at hAB
      have hpB : p ∈ B := by rw [← hAB]; exact List.mem_cons_self p rest
      have := hB p hpB
      omega
    | cons a A' =>
      rw [List.cons_append] at hAB
      injection hAB with h1 h2
      exact ⟨A', by rw [h1], h2⟩
  have hA' : ∀ q ∈ A', q.length = n := fun q hq => hA q (by simp [hq])
  have hexp_old : ∀ x ∈ V, (∃ q ∈ (enqueue_children p (next_states b) rest V).1,
      q.head? = some x) ∨ (∀ w ∈ next_states x, w ∈ (enqueue_children p (next_states b) rest V).2) := by
    intro x hxv
    rcases inv.expanded x hxv with ⟨q, hqQ, hqh⟩ | hcl
    · rcases List.mem_cons.1 hqQ with hqp | hqr
      · right
        intro w hw
        have hxb : x = b := by
          rw [hqp, hph] at hqh
          injection hqh with h
          exact h.symm
        rw [hxb] at hw
        exact he5 w hw
      · left
        exact ⟨q, by rw [he1]; exact List.mem_append_left _ hqr, hqh⟩
    · right
      intro w hw
      exact he4 w (hcl w hw)
  have hgq_old : goal ∈ V → ∃ q ∈ (enqueue_children p (next_states b) rest V).1,
      q.head? = some goal := by
    intro hgv
    obtain ⟨q, hqQ, hqh⟩ := inv.goal_queued hgv
    rcases List.mem_cons.1 hqQ with hqp | hqr
    · exfalso
      apply hbg
      rw [hqp, hph] at hqh
      simpa using hqh
    · exact ⟨q, by rw [he1]; exact List.mem_append_left _ hqr, hqh⟩
  constructor
  · refine ⟨inv.npos, ?_, ?_, ?_, ?_, ?_, ?_, ?_, ?_⟩
    · refine ⟨A', B ++ extra, ?_, hA', ?_⟩
      · rw [he1, hrest, List.append_assoc]
      · intro q hq
        rcases List.mem_append.1 hq with h | h
        · exact hB q h
        · exact hextra_len q h
    · intro q hq
      rw [he1] at hq
      rcases List.mem_append.1 hq with h | h
      · exact inv.valid q (by simp [h])
      · exact hextra_valid q h
    · exact he4 start inv.start_visited
    · intro q hq c hc
      rw [he1] at hq
      rcases List.mem_append.1 hq with h | h
      · exact he4 c (inv.heads_visited q (by simp [h]) c hc)
      · obtain ⟨c', hcmem, rfl, _⟩ := he2 q h
        have hcc : c' = c := by simpa using hc
        rw [← hcc]
        exact he5 c' hcmem
    · intro q hq c hc qq hqq
      rw [he1] at hq
      rcases List.mem_append.1 hq with h | h
      · exact inv.shortest q (by simp [h]) c hc qq hqq
      · exact hextra_shortest q h c hc qq hqq
    · intro v q hq hlen
      exact he4 v (inv.reach_visited v q hq hlen)
    · intro x hx
      rcases he3 x hx with hxv | hxc
      · exact hexp_old x hxv
      · by_cases hxv : x ∈ V
        · exact hexp_old x hxv
        · left
          obtain ⟨q, hq, hqh⟩ := he6 x hx hxv
          exact ⟨q, by rw [he1]; exact List.mem_append_right _ hq, hqh⟩
    · intro hg
      rcases he3 goal hg with hgv | hgc
      · exact hgq_old hgv
      · by_cases hgv : goal ∈ V
        · exact hgq_old hgv
        · obtain ⟨q, hq, hqh⟩ := he6 goal hg hgv
          exact ⟨q, by rw [he1]; exact List.mem_append_right _ hq, hqh⟩
  · rw [he1, countN, countN, List.filter_append, List.length_append]
    have hex0 : (extra.filter (fun q => q.length == n)).length = 0 := by
      rw [List.length_eq_zero, List.filter_eq_nil]
      intro q hq
      have := hextra_len q hq
      simp [this]
    rw [hex0, List.filter_cons]
    have hpt : (p.length == n) = true := by simp [hp]
    rw [if_pos hpt]
    simp

lemma bfs_inv_front_cases {start goal : Board} {p : List Board} {rest : List (List Board)}
    {V : List Board} {n : Nat} (inv : BfsInv start goal (p :: rest) V n) :
    p.length = n ∨ (∀ q ∈ p :: rest, q.length = n + 1) := by
  obtain ⟨A, B, hAB, hA, hB⟩ := inv.levels
  cases A with
  | nil =>
    right
    rw [List.nil_append] at hAB
    intro q hq
    exact hB q (hAB ▸ hq)
  | cons a A' =>
    left
    rw [List.cons_append] at hAB
    injection hAB with h1 _
    rw [h1]
    exact hA a (List.mem_cons_self a A')

lemma bfs_loop_sound (start goal : Board) :
    ∀ (fuel : Nat) (Q : List (List Board)) (V : List Board),
      (∃ n, BfsInv start goal Q V n) →
      ∀ res, bfs_loop goal fuel Q V = some res →
        PathFrom start goal res ∧ ∀ q, PathFrom start goal q → res.length ≤ q.length := by
  intro fuel
  induction fuel with
  | zero =>
    intro Q V _ res h
    rw [bfs_loop] at h
    exact absurd h (by simp)
  | succ fuel ih =>
    intro Q V hinv res h
    obtain ⟨n, inv⟩ := hinv
    cases Q with
    | nil => rw [bfs_loop] at h; exact absurd h (by simp)
    | cons p rest =>
      cases p with
      | nil => rw [bfs_loop] at h; exact absurd h (by simp)
      | cons b t =>
        rw [bfs_loop] at h
        by_cases hbg : b = goal
        · rw [if_pos hbg] at h
          have hres : res = (b :: t).reverse := by
            injection h with h2
            exact h2.symm
          have hmem : (b :: t) ∈ (b :: t) :: rest := List.mem_cons_self _ _
          obtain ⟨b', hb', hpath⟩ := inv.valid (b :: t) hmem
          have hbb : b = b' := by simpa using hb'
          subst hbb
          constructor
          · rw [hres, ← hbg]
            exact hpath
          · intro q hq
            have := inv.shortest (b :: t) hmem b rfl q (by rw [hbg]; exact hq)
            rw [hres]
            simpa using this
        · rw [if_neg hbg] at h
          rcases bfs_inv_front_cases inv with hp | hall
          · exact ih _ _ ⟨n, (bfs_inv_step inv rfl hbg hp).1⟩ res h
          · have inv2 := bfs_inv_advance inv hall
            have hp2 : (b :: t).length = n + 1 := hall _ (List.mem_cons_self _ _)
            exact ih _ _ ⟨n + 1, (bfs_inv_step inv2 rfl hbg hp2).1⟩ res h

lemma bfs_loop_complete_aux (start goal : Board) (q0 : List Board)
    (hq0 : PathFrom start goal q0) :
    ∀ (k c n : Nat) (Q : List (List Board)) (V : List Board),
      q0.length + 1 - n ≤ k → countN n Q ≤ c → BfsInv start goal Q V n →
      ∃ fuel res, bfs_loop goal fuel Q V = some res := by
  intro k
  induction k with
  | zero =>
    intro c n Q V hk _ inv
    have := bfs_inv_level_le inv hq0
    omega
  | succ k ihk =>
    intro c
    induction c with
    | zero =>
      intro n Q V hk hc inv
      cases Q with
      | nil => exact absurd ⟨q0, hq0⟩ (bfs_inv_empty_no_path inv)
      | cons p rest =>
        rcases bfs_inv_front_cases inv with hp | hall
        · exfalso
          have : countN n (p :: rest) ≥ 1 := by
            rw [countN, List.filter_cons, if_pos (by simp [hp])]
            simp
          omega
        · have inv2 := bfs_inv_advance inv hall
          have hn : n ≤ q0.length := bfs_inv_level_le inv hq0
          exact ihk (countN (n + 1) (p :: rest)) (n + 1) (p :: rest) V (by omega)
            (le_refl _) inv2
    | succ c ihc =>
      intro n Q V hk hc inv
      cases Q with
      | nil => exact absurd ⟨q0, hq0⟩ (bfs_inv_empty_no_path inv)
      | cons p rest =>
        have hpne : p ≠ [] := by
          obtain ⟨b', hb', _⟩ := inv.valid p (List.mem_cons_self p rest)
          intro hp
          rw [hp] at hb'
          simp at hb'
        obtain ⟨b, t, rfl⟩ : ∃ b t, p = b :: t := by
          cases p with
          | nil => exact absurd rfl hpne
          | cons b t => exact ⟨b, t, rfl⟩
        by_cases hbg : b = goal
        · refine ⟨1, (b :: t).reverse, ?_⟩
          rw [bfs_loop, if_pos hbg]
        · rcases bfs_inv_front_cases inv with hp | hall
          · obtain ⟨inv', hcount⟩ := bfs_inv_step inv rfl hbg hp
            have hcount' : countN n (enqueue_children (b :: t) (next_states b) rest V).1 ≤ c := by
              have h1 : countN n ((b :: t) :: rest) ≤ c + 1 := hc
              omega
            obtain ⟨fuel, res, hres⟩ := ihc n _ _ hk hcount' inv'
            refine ⟨fuel + 1, res, ?_⟩
            rw [bfs_loop, if_neg hbg]
            exact hres
          · have inv2 := bfs_inv_advance inv hall
            have hn : n ≤ q0.length := bfs_inv_level_le inv hq0
            exact ihk (countN (n + 1) ((b :: t) :: rest)) (n + 1) ((b :: t) :: rest) V
              (by omega) (le_refl _) inv2

lemma bfs_initial_inv (start goal : Board) : BfsInv start goal [[start]] [start] 1 := by
  refine ⟨le_refl 1, ⟨[[start]], [], by simp, by simp, by simp⟩, ?_, by simp, ?_, ?_, ?_, ?_, ?_⟩
  · intro p hp
    simp only [List.mem_singleton] at hp
    subst hp
    exact ⟨start, rfl, ⟨rfl, rfl, List.chain'_singleton start⟩⟩
  · intro p hp b hb
    simp only [List.mem_singleton] at hp
    subst hp
    simp at hb
    simp [hb]
  · intro p hp b hb q hq
    simp only [List.mem_singleton] at hp
    subst hp
    have := pathfrom_length_pos hq
    simpa using this
  · intro v q hq hlen
    have h1 : q.length = 1 := by have := pathfrom_length_pos hq; omega
    obtain ⟨x, rfl⟩ : ∃ x, q = [x] := by
      cases q with
      | nil => simp at h1
      | cons a s => cases s with
        | nil => exact ⟨a, rfl⟩
        | cons b u => simp at h1
    obtain ⟨hx, hv⟩ := pathfrom_singleton hq
    simp [hv, hx]
  · intro v hv
    simp only [List.mem_singleton] at hv
    subst hv
    exact Or.inl ⟨[v], by simp, rfl⟩
  · intro hg
    simp only [List.mem_singleton] at hg
    exact ⟨[start], by simp, by simp [hg]⟩

/-- Claim C1: the optimal search entry point (the spec-modelled
breadth-first `bfs` with an iteration budget): (i) any returned path is a
genuine path from start to goal of minimal length among all paths; (ii) if
the puzzle is solvable, some budget makes `bfs` return a path (so `none`
under a larger budget can only mean the budget ran out first, and `none`
with an emptied frontier, by (iii), happens exactly on unsolvable
instances); (iii) if no path exists, every budget yields the not-found
signal `none`. -/
theorem claim1_bfs_shortest (start goal : Board) :
    (∀ fuel res, bfs start goal fuel = some res →
      PathFrom start goal res ∧ ∀ q, PathFrom start goal q → res.length ≤ q.length) ∧
    ((∃ q, PathFrom start goal q) → ∃ fuel res, bfs start goal fuel = some res) ∧
    ((¬ ∃ q, PathFrom start goal q) → ∀ fuel, bfs start goal fuel = none) := by
  have hsound : ∀ fuel res, bfs start goal fuel = some res →
      PathFrom start goal res ∧ ∀ q, PathFrom start goal q → res.length ≤ q.length := by
    intro fuel res h
    exact bfs_loop_sound start goal fuel _ _ ⟨1, bfs_initial_inv start goal⟩ res h
  refine ⟨hsound, ?_, ?_⟩
  · rintro ⟨q0, hq0⟩
    exact bfs_loop_complete_aux start goal q0 hq0 q0.length (countN 1 [[start]]) 1 _ _
      (by omega) (le_refl _) (bfs_initial_inv start goal)
  · intro hno fuel
    cases h : bfs start goal fuel with
    | none => rfl
    | some res => exact absurd ⟨res, (hsound fuel res h).1⟩ hno

/-- Witness for claim C1: on the trivially solvable instance with start
equal to goal, budget 1 suffices and the returned path is shortest. -/
theorem claim1_witness :
    bfs goal_board goal_board 1 = some [goal_board] ∧
      PathFrom goal_board goal_board [goal_board] ∧
      ∀ q, PathFrom goal_board goal_board q → 1 ≤ q.length := by
  have h1 : bfs goal_board goal_board 1 = some [goal_board] := by
    simp [bfs, bfs_loop]
  have h2 := (claim1_bfs_shortest goal_board goal_board).1 1 [goal_board] h1
  exact ⟨h1, h2.1, fun q hq => by simpa using h2.2 q hq⟩
